import Mathlib

/-!
Shallow embedding of the dual-field BM25 ranking engine of
`src/mcp/src/resources/bm25.rs`.

Modelling conventions:
- Rust `&str` / `String` values are modelled as `List Char` (the engine only
  ever produces ASCII tokens, where Rust byte length and character length
  coincide).
- Rust `HashMap` / `HashSet` are modelled as association lists / lists kept in
  insertion order; the Rust iteration order is unspecified, and none of the
  verified properties depend on it.
- Rust `f64` values are modelled as real numbers with the literals as written
  in the source; the floating-point "finiteness" claims are settled by showing
  every divisor of the computation is nonzero.
- The loop of `split_camel_acronyms` and the token scan advance by at least one
  character per iteration; they are modelled with an explicit fuel argument
  initialised to the input length, which is a strict bound on the number of
  iterations, so that the functions compute by structural recursion.
- `finalize` mutates the index in place, storing the average field lengths and
  the per-term idf; the embedding passes state explicitly: the stored values
  are given by functions (`Index.avgProse`, `Index.avgCode`, `Index.termIdf`)
  of the built index, and `Index.score` reads those, which is exactly the
  post-`finalize` behaviour of the Rust code.
-/

namespace BM25

/-- Tokens and document identifiers: Rust string slices as character lists. -/
abbrev Tok := List Char

/-- Rust `char::is_ascii_uppercase`. -/
def isAsciiUpper (c : Char) : Bool := decide (65 ≤ c.toNat ∧ c.toNat ≤ 90)

/-- Rust `char::is_ascii_lowercase`. -/
def isAsciiLower (c : Char) : Bool := decide (97 ≤ c.toNat ∧ c.toNat ≤ 122)

/-- Rust `char::is_ascii_digit`. -/
def isAsciiDigit (c : Char) : Bool := decide (48 ≤ c.toNat ∧ c.toNat ≤ 57)

/-- Rust `char::is_ascii_alphanumeric`. -/
def isAsciiAlphanum (c : Char) : Bool := isAsciiUpper c || isAsciiLower c || isAsciiDigit c

/-- Rust `char::to_ascii_lowercase`. -/
def asciiLower (c : Char) : Char :=
  if isAsciiUpper c then Char.ofNat (c.toNat + 32) else c

/-- Rust `str::to_ascii_lowercase`. -/
def lowerTok (t : Tok) : Tok := t.map asciiLower

/-- Characters kept by the tokenizer of `Index::tokenize_raw`:
ASCII alphanumerics, underscore, colon and exclamation mark. -/
def isTokChar (c : Char) : Bool :=
  isAsciiAlphanum c || c == '_' || c == ':' || c == '!'

/-- Fuel-bounded scan for `Index::tokenize_raw`: split on every character that
is not a token character and keep the non-empty runs. -/
def tokFuel : Nat → List Char → List Tok
  | 0, _ => []
  | _, [] => []
  | fuel + 1, c :: cs =>
    if isTokChar c then
      (c :: cs.takeWhile isTokChar) :: tokFuel fuel (cs.dropWhile isTokChar)
    else
      tokFuel fuel cs

/-- Rust `Index::tokenize_raw` (the fuel `s.length` bounds the loop). -/
def tokenize_raw (s : List Char) : List Tok := tokFuel s.length s

/-- Substring test, Rust `str::contains` with a string pattern. -/
def containsSeq (sub : Tok) : Tok → Bool
  | [] => sub.isEmpty
  | c :: cs => sub.isPrefixOf (c :: cs) || containsSeq sub cs

/-- Rust `Index::looks_code`: classify a raw token as code-like. -/
def looks_code (tok : Tok) : Bool :=
  tok.any (fun c => isAsciiUpper c || isAsciiDigit c)
    || tok.contains '_'
    || containsSeq ([':', ':']) tok
    || (tok.getLast? == some '!')

/-- Fuel-bounded loop of `Index::split_camel_acronyms`.  Every iteration of the
Rust `while` loop advances `i` by at least one, so the input length bounds the
number of iterations. -/
def scaFuel : Nat → List Char → List Tok
  | 0, _ => []
  | _, [] => []
  | fuel + 1, c :: cs =>
    if isAsciiUpper c then
      if (cs.head?.map isAsciiLower).getD false then
        -- capitalized word: consume all lowercase following the capital
        (c :: cs.takeWhile isAsciiLower) :: scaFuel fuel (cs.dropWhile isAsciiLower)
      else
        -- acronym: consume consecutive uppercase
        match cs.dropWhile isAsciiUpper with
        | d :: ds =>
          if isAsciiLower d && decide (1 < (c :: cs.takeWhile isAsciiUpper).length) then
            -- acronym-word boundary: back up one character, so the last
            -- uppercase letter starts the next capitalized word
            (c :: cs.takeWhile isAsciiUpper).dropLast ::
              ((c :: cs.takeWhile isAsciiUpper).getLastD 'A' :: d :: ds.takeWhile isAsciiLower) ::
              scaFuel fuel (ds.dropWhile isAsciiLower)
          else
            (c :: cs.takeWhile isAsciiUpper) :: scaFuel fuel (d :: ds)
        | [] => [c :: cs.takeWhile isAsciiUpper]
    else if isAsciiLower c then
      (c :: cs.takeWhile isAsciiLower) :: scaFuel fuel (cs.dropWhile isAsciiLower)
    else if isAsciiDigit c then
      (c :: cs.takeWhile isAsciiDigit) :: scaFuel fuel (cs.dropWhile isAsciiDigit)
    else
      -- punctuation: skip it
      scaFuel fuel cs

/-- Rust `Index::split_camel_acronyms`. -/
def split_camel_acronyms (seg : Tok) : List Tok := scaFuel seg.length seg

/-- Splitting on the two-character separator `::`, Rust `str::split("::")`
(leftmost, non-overlapping matches; empty pieces are kept). -/
def split_on_dcolon : List Char → List Tok
  | [] => [[]]
  | ':' :: ':' :: rest => [] :: split_on_dcolon rest
  | c :: rest =>
    match split_on_dcolon rest with
    | t :: ts => (c :: t) :: ts
    | [] => [[c]]

/-- Rust `Index::split_identifier`: path split, then snake split, then
camel/acronym split, dropping empties and lowercasing. -/
def split_identifier (tok : Tok) : List Tok :=
  ((((split_on_dcolon tok).flatMap fun seg => seg.splitOn '_').flatMap
      split_camel_acronyms).filter fun s => !s.isEmpty).map lowerTok

/-- Rust `Index::normalize_prose`: lowercase plus plural/tense folding. -/
def normalize_prose (tok : Tok) : Tok :=
  let t0 := lowerTok tok
  let t1 :=
    if (['i', 'e', 's'] : Tok).isSuffixOf t0 && decide (3 < t0.length) then
      t0.take (t0.length - 3) ++ ['y']
    else if (t0.getLast? == some 's') && !(['s', 's'] : Tok).isSuffixOf t0
        && decide (3 < t0.length) then
      t0.take (t0.length - 1)
    else t0
  if (['i', 'n', 'g'] : Tok).isSuffixOf t1 && decide (5 < t1.length) then
    t1.take (t1.length - 3)
  else if (['e', 'd'] : Tok).isSuffixOf t1 && decide (4 < t1.length) then
    t1.take (t1.length - 2)
  else t1

/-- Keyword list of `Index::is_noise_code_token`. -/
def kwList : List Tok :=
  (["fn", "let", "mut", "pub", "use", "mod", "impl", "struct", "enum", "trait",
    "where", "as", "in", "match", "if", "else", "loop", "while", "for", "self",
    "super", "crate", "return", "type", "const", "static", "ref", "move",
    "async", "await", "dyn", "default", "extern", "unsafe",
    "derive", "test", "cfg", "allow", "deny", "warn"].map String.data)

/-- Rust `Index::is_noise_code_token`: keywords, lifetime-style tokens and
single-character tokens are noise. -/
def is_noise_code_token (tok : Tok) : Bool :=
  kwList.contains tok || (tok.head? == some '\'') || tok.length == 1

/-- Per-term statistics of the Rust `TermStats`: the two posting lists, each a
`(doc, tf)` pair in insertion order.  The `idf` field written by `finalize` is
represented by the function `Index.termIdf` below. -/
structure TermStats where
  prose : List (Tok × Nat) := []
  code : List (Tok × Nat) := []
deriving DecidableEq, Repr

/-- The discrete part of the Rust `Index`: the term table and the per-document
field-length maps.  The `avg_prose`/`avg_code` fields written by `finalize` are
represented by `Index.avgProse`/`Index.avgCode`; the hyperparameters fixed by
`Index::new` (`w_prose = 1.0`, `b_prose = 0.75`, `w_code = 1.0`,
`b_code = 0.50`) appear as the constants used by `Index.score`, and `k1` is
passed to `Index.score` explicitly. -/
structure Index where
  terms : List (Tok × TermStats) := []
  len_prose : List (Tok × Nat) := []
  len_code : List (Tok × Nat) := []
deriving DecidableEq, Repr

/-- Keys of an association list. -/
def keysOf {β : Type _} (m : List (Tok × β)) : List Tok := m.map Prod.fst

/-- Rust `*map.entry(k).or_insert(0) += 1` on an association list. -/
def bump : List (Tok × Nat) → Tok → List (Tok × Nat)
  | [], k => [(k, 1)]
  | p :: m, k => if p.1 = k then (p.1, p.2 + 1) :: m else p :: bump m k

/-- Lookup in an association list (Rust `HashMap::get`). -/
def alookup {β : Type _} : List (Tok × β) → Tok → Option β
  | [], _ => none
  | p :: m, k => if p.1 = k then some p.2 else alookup m k

/-- Count stored for a key in a term-frequency map (0 when absent). -/
def countOf (m : List (Tok × Nat)) (k : Tok) : Nat := (alookup m k).getD 0

/-- Per-document accumulator of `Index::add_doc`: the two term-frequency maps
and the two field lengths. -/
structure DocAcc where
  tfp : List (Tok × Nat) := []
  tfc : List (Tok × Nat) := []
  lp : Nat := 0
  lc : Nat := 0
deriving DecidableEq, Repr

/-- Processing of one raw token in the loop of `Index::add_doc`. -/
def procToken (a : DocAcc) (raw : Tok) : DocAcc :=
  if looks_code raw then
    -- whole identifier/path/macro
    let lower := lowerTok raw
    let a1 :=
      if !is_noise_code_token lower then
        { a with tfc := bump a.tfc lower, lc := a.lc + 1 }
      else a
    -- subwords (path -> snake -> camel acronyms)
    (split_identifier raw).foldl
      (fun b sub =>
        if !is_noise_code_token sub then
          { b with tfc := bump b.tfc sub, lc := b.lc + 1 }
        else b) a1
  else
    { a with tfp := bump a.tfp (normalize_prose raw), lp := a.lp + 1 }

/-- Term-frequency maps and field lengths accumulated for one document text. -/
def docAccOf (text : List Char) : DocAcc :=
  (tokenize_raw text).foldl procToken {}

/-- Rust `self.terms.entry(t).or_default().prose.push(Posting { doc, tf })`. -/
def pushProse (terms : List (Tok × TermStats)) (t doc : Tok) (f : Nat) :
    List (Tok × TermStats) :=
  match terms with
  | [] => [(t, { prose := [(doc, f)] })]
  | p :: rest =>
    if p.1 = t then (p.1, { p.2 with prose := p.2.prose ++ [(doc, f)] }) :: rest
    else p :: pushProse rest t doc f

/-- Rust `self.terms.entry(t).or_default().code.push(Posting { doc, tf })`. -/
def pushCode (terms : List (Tok × TermStats)) (t doc : Tok) (f : Nat) :
    List (Tok × TermStats) :=
  match terms with
  | [] => [(t, { code := [(doc, f)] })]
  | p :: rest =>
    if p.1 = t then (p.1, { p.2 with code := p.2.code ++ [(doc, f)] }) :: rest
    else p :: pushCode rest t doc f

/-- Rust `Index::add_doc`.  The Rust function panics on a duplicate document
identifier; the embedding returns `none` in that case, and otherwise the
updated index. -/
def Index.add_doc (idx : Index) (doc : Tok) (text : List Char) : Option Index :=
  if doc ∈ keysOf idx.len_prose then none
  else
    let a := docAccOf text
    let terms1 := a.tfp.foldl (fun ts p => pushProse ts p.1 doc p.2) idx.terms
    let terms2 := a.tfc.foldl (fun ts p => pushCode ts p.1 doc p.2) terms1
    some
      { terms := terms2
        len_prose := idx.len_prose ++ [(doc, a.lp)]
        len_code := idx.len_code ++ [(doc, a.lc)] }

/-- Adding a list of documents in order, failing on the first duplicate id. -/
def buildFrom (idx : Index) : List (Tok × List Char) → Option Index
  | [] => some idx
  | (d, t) :: rest =>
    match idx.add_doc d t with
    | none => none
    | some idx2 => buildFrom idx2 rest

/-- Building an index from a corpus, starting from `Index::new`'s empty maps. -/
def build (docs : List (Tok × List Char)) : Option Index := buildFrom {} docs

/-! The finalize phase.  `Index::finalize` computes the corpus-wide average
field lengths and, per term, the document frequency (size of the `seen` set of
document identifiers over both posting lists) and the Lucene-style idf.  The
embedding represents the values stored by `finalize` as functions of the built
index. -/

/-- Rust `HashSet::insert` on a list-backed set. -/
def insertDoc (seen : List Tok) (d : Tok) : List Tok :=
  if d ∈ seen then seen else d :: seen

/-- The `seen` set of `Index::finalize` for one term: document identifiers of
the prose postings, then of the code postings. -/
def TermStats.seenDocs (st : TermStats) : List Tok :=
  (st.prose ++ st.code).foldl (fun seen p => insertDoc seen p.1) []

/-- Document frequency of one term, `seen.len()` in `Index::finalize`. -/
def TermStats.df (st : TermStats) : Nat := st.seenDocs.length

/-- Total number of documents, `self.len_prose.len()` in `Index::finalize`. -/
def Index.nDocs (idx : Index) : Nat := idx.len_prose.length

/-- Sum of the per-document prose lengths (`sum_p` in `Index::finalize`). -/
def Index.sumLenProse (idx : Index) : Nat := (idx.len_prose.map Prod.snd).sum

/-- Sum of the per-document code lengths (`sum_c` in `Index::finalize`). -/
def Index.sumLenCode (idx : Index) : Nat := (idx.len_code.map Prod.snd).sum

/-- Average prose length stored by `Index::finalize`:
`if n > 0.0 { sum_p / n } else { 0.0 }`. -/
noncomputable def Index.avgProse (idx : Index) : ℝ :=
  if 0 < (idx.nDocs : ℝ) then (idx.sumLenProse : ℝ) / (idx.nDocs : ℝ) else 0

/-- Average code length stored by `Index::finalize`. -/
noncomputable def Index.avgCode (idx : Index) : ℝ :=
  if 0 < (idx.nDocs : ℝ) then (idx.sumLenCode : ℝ) / (idx.nDocs : ℝ) else 0

/-- Idf stored by `Index::finalize` for a term with statistics `st`:
`(1.0 + num / den).ln()` with `num = (n - df + 0.5).max(1e-12)` and
`den = (df + 0.5).max(1e-12)`. -/
noncomputable def Index.termIdf (idx : Index) (st : TermStats) : ℝ :=
  Real.log (1 + max ((idx.nDocs : ℝ) - (st.df : ℝ) + 0.5) 1e-12 /
    max ((st.df : ℝ) + 0.5) 1e-12)

/-! The scoring phase, `Index::score`. -/

/-- The fixed hyperparameters of `Index::new`: `w_prose`. -/
noncomputable def wProse : ℝ := 1.0

/-- The fixed hyperparameters of `Index::new`: `b_prose`. -/
noncomputable def bProse : ℝ := 0.75

/-- The fixed hyperparameters of `Index::new`: `w_code`. -/
noncomputable def wCode : ℝ := 1.0

/-- The fixed hyperparameters of `Index::new`: `b_code`. -/
noncomputable def bCode : ℝ := 0.50

/-- Query-term collection for one raw query token in `Index::score`: the
lowercased whole form and the subwords for a code-like token (each passed
through the noise filter), the normalized form for a prose token. -/
def qTermsOfToken (raw : Tok) : List (Tok × Bool) :=
  if looks_code raw then
    (if !is_noise_code_token (lowerTok raw) then [(lowerTok raw, true)] else []) ++
      (split_identifier raw).filterMap
        (fun sub => if !is_noise_code_token sub then some (sub, true) else none)
  else
    [(normalize_prose raw, false)]

/-- The `q_terms` list of `Index::score` for a whole query string. -/
def qTerms (query : List Char) : List (Tok × Bool) :=
  (tokenize_raw query).flatMap qTermsOfToken

/-- Rust `*acc.entry(doc).or_insert(0.0) += x` on the accumulator list. -/
noncomputable def accAdd (acc : List (Tok × ℝ)) (d : Tok) (x : ℝ) : List (Tok × ℝ) :=
  match acc with
  | [] => [(d, x)]
  | p :: rest => if p.1 = d then (p.1, p.2 + x) :: rest else p :: accAdd rest d x

/-- Document length read by `Index::score`,
`*self.len_prose.get(p.doc).unwrap_or(&0)`. -/
def dlProse (idx : Index) (doc : Tok) : Nat := (alookup idx.len_prose doc).getD 0

/-- Document length read by `Index::score` for the code field. -/
def dlCode (idx : Index) (doc : Tok) : Nat := (alookup idx.len_code doc).getD 0

/-- Length normalizer of the prose field in `Index::score`:
`1.0 - b_p + b_p * (dl / avg_p.max(1e-9))`. -/
noncomputable def proseNorm (idx : Index) (doc : Tok) : ℝ :=
  1 - bProse + bProse * ((dlProse idx doc : ℝ) / max idx.avgProse 1e-9)

/-- Weighted, length-normalized term frequency of the prose field,
`tfp = w_p * tf / norm`. -/
noncomputable def proseTf (idx : Index) (p : Tok × Nat) : ℝ :=
  wProse * (p.2 : ℝ) / proseNorm idx p.1

/-- Length normalizer of the code field in `Index::score`. -/
noncomputable def codeNorm (idx : Index) (doc : Tok) : ℝ :=
  1 - bCode + bCode * ((dlCode idx doc : ℝ) / max idx.avgCode 1e-9)

/-- Weighted, length-normalized term frequency of the code field. -/
noncomputable def codeTf (idx : Index) (p : Tok × Nat) : ℝ :=
  wCode * (p.2 : ℝ) / codeNorm idx p.1

/-- Accumulation of one prose posting:
`*acc.entry(p.doc) += qb_prose * idf * ((tfp * (k1 + 1.0)) / (tfp + k1))`. -/
noncomputable def proseStep (idx : Index) (k1 qb idf : ℝ) (acc : List (Tok × ℝ))
    (p : Tok × Nat) : List (Tok × ℝ) :=
  accAdd acc p.1 (qb * idf * ((proseTf idx p * (k1 + 1)) / (proseTf idx p + k1)))

/-- Accumulation of one code posting. -/
noncomputable def codeStep (idx : Index) (k1 qb idf : ℝ) (acc : List (Tok × ℝ))
    (p : Tok × Nat) : List (Tok × ℝ) :=
  accAdd acc p.1 (qb * idf * ((codeTf idx p * (k1 + 1)) / (codeTf idx p + k1)))

/-- Processing of one surviving query term in `Index::score`: a term absent
from the term table contributes nothing; a present term adds a BM25
contribution for every posting of both fields, with the query-time field
boosts `(0.95, 1.05)` for a code-classified query term and `(1.05, 0.95)` for
a prose-classified one. -/
noncomputable def termContrib (idx : Index) (k1 : ℝ) (acc : List (Tok × ℝ))
    (tb : Tok × Bool) : List (Tok × ℝ) :=
  match alookup idx.terms tb.1 with
  | none => acc
  | some ts =>
    let idf := idx.termIdf ts
    let qbProse : ℝ := if tb.2 then 0.95 else 1.05
    let qbCode : ℝ := if tb.2 then 1.05 else 0.95
    let acc1 := ts.prose.foldl (proseStep idx k1 qbProse idf) acc
    ts.code.foldl (codeStep idx k1 qbCode idf) acc1

/-- The main loop of `Index::score`, with the `seen_terms` deduplication set:
a term whose string was already seen is skipped. -/
noncomputable def scoreLoop (idx : Index) (k1 : ℝ) :
    List Tok → List (Tok × ℝ) → List (Tok × Bool) → List (Tok × ℝ)
  | _, acc, [] => acc
  | seen, acc, tb :: rest =>
    if tb.1 ∈ seen then scoreLoop idx k1 seen acc rest
    else scoreLoop idx k1 (tb.1 :: seen) (termContrib idx k1 acc tb) rest

/-- Rust `Index::score` on the finalized index: accumulate over the query
terms, then sort by score descending (`b.1.total_cmp(&a.1)`). -/
noncomputable def Index.score (idx : Index) (k1 : ℝ) (query : List Char) :
    List (Tok × ℝ) :=
  (scoreLoop idx k1 [] [] (qTerms query)).mergeSort fun a b => decide (b.2 ≤ a.2)

/-- The effective query-term list after the `seen_terms` deduplication of
`Index::score`: the first occurrence of each term string is kept, later
occurrences (whatever their `is_code` flag) are dropped. -/
def dedupKeys (seen : List Tok) : List (Tok × Bool) → List (Tok × Bool)
  | [] => []
  | tb :: rest =>
    if tb.1 ∈ seen then dedupKeys seen rest
    else tb :: dedupKeys (tb.1 :: seen) rest

/-- Predicate: all accumulated term frequencies are at least 1. -/
def tfPos (b : DocAcc) : Prop :=
  (∀ q ∈ b.tfp, 1 ≤ q.2) ∧ ∀ q ∈ b.tfc, 1 ≤ q.2

/-- Well-formedness invariant established by the build phase: the two length
maps share their (duplicate-free) key list, the term table has duplicate-free
keys, and every posting has a term frequency of at least 1 and a document
identifier present in the corpus. -/
def Index.WF (idx : Index) : Prop :=
  keysOf idx.len_code = keysOf idx.len_prose ∧
  (keysOf idx.len_prose).Nodup ∧
  (keysOf idx.terms).Nodup ∧
  ∀ p ∈ idx.terms, ∀ q ∈ p.2.prose ++ p.2.code, 1 ≤ q.2 ∧ q.1 ∈ keysOf idx.len_prose

/-- Statement of the prose normalizer as the specification words it: suffix
tests and suffix surgery phrased over the reversed token ("ends in X" as a
prefix of the reversal, "drop the suffix" as dropping from the reversal). -/
def normalizeProseSpec (tok : Tok) : Tok :=
  let t0 := lowerTok tok
  let t1 :=
    if t0.reverse.take 3 = ['s', 'e', 'i'] ∧ 3 < t0.length then
      (t0.reverse.drop 3).reverse ++ ['y']
    else if t0.reverse.take 1 = ['s'] ∧ ¬ t0.reverse.take 2 = ['s', 's'] ∧
        3 < t0.length then
      (t0.reverse.drop 1).reverse
    else t0
  if t1.reverse.take 3 = ['g', 'n', 'i'] ∧ 5 < t1.length then
    (t1.reverse.drop 3).reverse
  else if t1.reverse.take 2 = ['d', 'e'] ∧ 4 < t1.length then
    (t1.reverse.drop 2).reverse
  else t1

/-- Concrete two-document corpus (from the crate's own tests), used to
instantiate the verified statements. -/
def demoDocs : List (Tok × List Char) :=
  [(("d1".data), ("error Error more context".data)),
   (("d2".data), ("only error here".data))]

/-- The index built from the demo corpus. -/
def demoIndex : Index := (build demoDocs).getD {}

/-! Generic helper lemmas. -/

@[simp] theorem keysOf_nil {β : Type _} : keysOf ([] : List (Tok × β)) = [] := rfl

@[simp] theorem keysOf_cons {β : Type _} (p : Tok × β) (m : List (Tok × β)) :
    keysOf (p :: m) = p.1 :: keysOf m := rfl

@[simp] theorem keysOf_append {β : Type _} (m₁ m₂ : List (Tok × β)) :
    keysOf (m₁ ++ m₂) = keysOf m₁ ++ keysOf m₂ := List.map_append _ m₁ m₂

/-- Preservation of an invariant along a left fold. -/
theorem foldlPreserve {α β : Type _} {P : α → Prop} {step : α → β → α} :
    ∀ (l : List β) (a : α), (∀ a x, x ∈ l → P a → P (step a x)) → P a →
      P (l.foldl step a)
  | [], _, _, ha => ha
  | x :: l, a, h, ha =>
    foldlPreserve l (step a x) (fun b y hy => h b y (List.mem_cons_of_mem x hy))
      (h a x (List.mem_cons_self x l) ha)

/-- Lookup in an association list returns an actual entry of the list. -/
theorem alookup_mem {β : Type _} : ∀ {m : List (Tok × β)} {k : Tok} {v : β},
    alookup m k = some v → (k, v) ∈ m
  | [], _, _, h => by simp [alookup] at h
  | p :: m, k, v, h => by
    by_cases hk : p.1 = k
    · simp only [alookup, hk, if_pos, Option.some.injEq] at h
      subst hk
      subst h
      simp
    · simp only [alookup, hk, if_false, reduceIte] at h
      exact List.mem_cons_of_mem _ (alookup_mem h)

/-- Values stored by `bump` stay at least 1. -/
theorem bump_pos : ∀ {m : List (Tok × Nat)} (k : Tok),
    (∀ q ∈ m, 1 ≤ q.2) → ∀ q ∈ bump m k, 1 ≤ q.2
  | [], k, _ => by simp [bump]
  | p :: m, k, h => by
    by_cases hk : p.1 = k
    · simp only [bump, hk, if_pos]
      intro q hq
      rcases List.mem_cons.mp hq with hq | hq
      · subst hq
        exact le_trans (h p (List.mem_cons_self _ _)) (Nat.le_succ _)
      · exact h q (List.mem_cons_of_mem _ hq)
    · simp only [bump, hk, reduceIte]
      intro q hq
      rcases List.mem_cons.mp hq with hq | hq
      · subst hq
        exact h q (List.mem_cons_self _ _)
      · exact bump_pos k (fun r hr => h r (List.mem_cons_of_mem _ hr)) q hq

/-- Bumping a key increments exactly its stored count. -/
theorem countOf_bump_self : ∀ (m : List (Tok × Nat)) (k : Tok),
    countOf (bump m k) k = countOf m k + 1
  | [], k => by simp [bump, countOf, alookup]
  | p :: m, k => by
    by_cases hk : p.1 = k
    · simp [bump, countOf, alookup, hk]
    · simpa [bump, countOf, alookup, hk] using countOf_bump_self m k

/-- Keys after `pushProse`: unchanged when the term is present, the term
appended otherwise. -/
theorem keysOf_pushProse : ∀ (ts : List (Tok × TermStats)) (t d : Tok) (f : Nat),
    keysOf (pushProse ts t d f) =
      if t ∈ keysOf ts then keysOf ts else keysOf ts ++ [t]
  | [], t, d, f => by simp [pushProse]
  | p :: ts, t, d, f => by
    by_cases hk : p.1 = t
    · simp [pushProse, hk]
    · have h1 : pushProse (p :: ts) t d f = p :: pushProse ts t d f := by
        simp [pushProse, hk]
      rw [h1, keysOf_cons, keysOf_pushProse ts t d f]
      by_cases ht : t ∈ keysOf ts
      · simp [ht, Ne.symm hk]
      · simp [ht, Ne.symm hk]

/-- Keys after `pushCode`: same shape as for `pushProse`. -/
theorem keysOf_pushCode : ∀ (ts : List (Tok × TermStats)) (t d : Tok) (f : Nat),
    keysOf (pushCode ts t d f) =
      if t ∈ keysOf ts then keysOf ts else keysOf ts ++ [t]
  | [], t, d, f => by simp [pushCode]
  | p :: ts, t, d, f => by
    by_cases hk : p.1 = t
    · simp [pushCode, hk]
    · have h1 : pushCode (p :: ts) t d f = p :: pushCode ts t d f := by
        simp [pushCode, hk]
      rw [h1, keysOf_cons, keysOf_pushCode ts t d f]
      by_cases ht : t ∈ keysOf ts
      · simp [ht, Ne.symm hk]
      · simp [ht, Ne.symm hk]

/-- Key lists stay duplicate-free under `pushProse`. -/
theorem nodup_pushProse {ts : List (Tok × TermStats)} (t d : Tok) (f : Nat)
    (h : (keysOf ts).Nodup) : (keysOf (pushProse ts t d f)).Nodup := by
  rw [keysOf_pushProse]
  by_cases ht : t ∈ keysOf ts
  · simpa [ht]
  · simp only [ht, reduceIte]
    exact List.Nodup.append h (List.nodup_singleton t) (by simpa using ht)

/-- Key lists stay duplicate-free under `pushCode`. -/
theorem nodup_pushCode {ts : List (Tok × TermStats)} (t d : Tok) (f : Nat)
    (h : (keysOf ts).Nodup) : (keysOf (pushCode ts t d f)).Nodup := by
  rw [keysOf_pushCode]
  by_cases ht : t ∈ keysOf ts
  · simpa [ht]
  · simp only [ht, reduceIte]
    exact List.Nodup.append h (List.nodup_singleton t) (by simpa using ht)

/-- Postings after `pushProse` are the old postings plus the new one. -/
theorem pushProse_postings {Q : Tok × Nat → Prop} :
    ∀ {ts : List (Tok × TermStats)} (t d : Tok) (f : Nat),
    (∀ p ∈ ts, ∀ q ∈ p.2.prose ++ p.2.code, Q q) → Q (d, f) →
    ∀ p ∈ pushProse ts t d f, ∀ q ∈ p.2.prose ++ p.2.code, Q q
  | [], t, d, f, _, hnew => by
    simp only [pushProse]
    intro p hp
    simp only [List.mem_singleton] at hp
    subst hp
    intro q hq
    simp at hq
    subst hq
    exact hnew
  | p :: ts, t, d, f, hold, hnew => by
    by_cases hk : p.1 = t
    · simp only [pushProse, hk, if_pos]
      intro r hr
      rcases List.mem_cons.mp hr with hr | hr
      · subst hr
        intro q hq
        simp only [List.mem_append, List.mem_singleton] at hq
        rcases hq with (hq | hq) | hq
        · exact hold p (List.mem_cons_self _ _) q (List.mem_append_left _ hq)
        · subst hq
          exact hnew
        · exact hold p (List.mem_cons_self _ _) q (List.mem_append_right _ hq)
      · exact hold r (List.mem_cons_of_mem _ hr)
    · simp only [pushProse, hk, reduceIte]
      intro r hr
      rcases List.mem_cons.mp hr with hr | hr
      · exact hr ▸ hold p (List.mem_cons_self _ _)
      · exact pushProse_postings t d f
          (fun s hs => hold s (List.mem_cons_of_mem _ hs)) hnew r hr

/-- Postings after `pushCode` are the old postings plus the new one. -/
theorem pushCode_postings {Q : Tok × Nat → Prop} :
    ∀ {ts : List (Tok × TermStats)} (t d : Tok) (f : Nat),
    (∀ p ∈ ts, ∀ q ∈ p.2.prose ++ p.2.code, Q q) → Q (d, f) →
    ∀ p ∈ pushCode ts t d f, ∀ q ∈ p.2.prose ++ p.2.code, Q q
  | [], t, d, f, _, hnew => by
    simp only [pushCode]
    intro p hp
    simp only [List.mem_singleton] at hp
    subst hp
    intro q hq
    simp at hq
    subst hq
    exact hnew
  | p :: ts, t, d, f, hold, hnew => by
    by_cases hk : p.1 = t
    · simp only [pushCode, hk, if_pos]
      intro r hr
      rcases List.mem_cons.mp hr with hr | hr
      · subst hr
        intro q hq
        simp only [List.mem_append, List.mem_singleton] at hq
        rcases hq with hq | (hq | hq)
        · exact hold p (List.mem_cons_self _ _) q (List.mem_append_left _ hq)
        · exact hold p (List.mem_cons_self _ _) q (List.mem_append_right _ hq)
        · subst hq
          exact hnew
      · exact hold r (List.mem_cons_of_mem _ hr)
    · simp only [pushCode, hk, reduceIte]
      intro r hr
      rcases List.mem_cons.mp hr with hr | hr
      · exact hr ▸ hold p (List.mem_cons_self _ _)
      · exact pushCode_postings t d f
          (fun s hs => hold s (List.mem_cons_of_mem _ hs)) hnew r hr

/-! Build-phase invariants. -/

/-- Processing one raw token keeps all term frequencies at least 1. -/
theorem procToken_tfPos (a : DocAcc) (raw : Tok) (ha : tfPos a) :
    tfPos (procToken a raw) := by
  unfold procToken
  cases hc : looks_code raw
  · rw [if_neg (by simp [hc])]
    exact ⟨bump_pos _ ha.1, ha.2⟩
  · rw [if_pos (by simp [hc])]
    apply foldlPreserve
    · intro b sub _ hb
      cases hn : is_noise_code_token sub
      · rw [if_pos (by simp [hn])]
        exact ⟨hb.1, bump_pos _ hb.2⟩
      · rw [if_neg (by simp [hn])]
        exact hb
    · cases hn : is_noise_code_token (lowerTok raw)
      · rw [if_pos (by simp [hn])]
        exact ⟨ha.1, bump_pos _ ha.2⟩
      · rw [if_neg (by simp [hn])]
        exact ha

/-- Term frequencies accumulated by `procToken` are at least 1. -/
theorem docAcc_tf_pos (text : List Char) : tfPos (docAccOf text) := by
  unfold docAccOf
  apply foldlPreserve _ _ (fun a x _ => procToken_tfPos a x)
  exact ⟨fun q hq => absurd hq (List.not_mem_nil q),
    fun q hq => absurd hq (List.not_mem_nil q)⟩

/-- Unfolding of a successful `add_doc`. -/
theorem add_doc_some {idx idx' : Index} {d : Tok} {text : List Char}
    (ha : idx.add_doc d text = some idx') :
    d ∉ keysOf idx.len_prose ∧
    idx'.len_prose = idx.len_prose ++ [(d, (docAccOf text).lp)] ∧
    idx'.len_code = idx.len_code ++ [(d, (docAccOf text).lc)] ∧
    idx'.terms = (docAccOf text).tfc.foldl (fun ts p => pushCode ts p.1 d p.2)
      ((docAccOf text).tfp.foldl (fun ts p => pushProse ts p.1 d p.2) idx.terms) := by
  unfold Index.add_doc at ha
  by_cases hd : d ∈ keysOf idx.len_prose
  · simp [hd] at ha
  · simp only [hd, reduceIte, Option.some.injEq] at ha
    subst ha
    exact ⟨hd, rfl, rfl, rfl⟩

/-- A successful `add_doc` preserves well-formedness. -/
theorem add_doc_wf {idx idx' : Index} {d : Tok} {text : List Char} (h : idx.WF)
    (ha : idx.add_doc d text = some idx') : idx'.WF := by
  obtain ⟨hd, hlp, hlc, hterms⟩ := add_doc_some ha
  obtain ⟨hkeq, hnp, hnt, hpost⟩ := h
  have hkey : keysOf (idx.len_prose ++ [(d, (docAccOf text).lp)]) =
      keysOf idx.len_prose ++ [d] := by simp [keysOf]
  refine ⟨?_, ?_, ?_, ?_⟩
  · rw [hlp, hlc, keysOf_append, keysOf_append, hkeq]
    simp [keysOf]
  · rw [hlp, hkey]
    exact List.Nodup.append hnp (List.nodup_singleton d) (by simpa using hd)
  · rw [hterms]
    have hmid := @foldlPreserve (List (Tok × TermStats)) (Tok × Nat)
      (fun ts => (keysOf ts).Nodup) (fun ts p => pushProse ts p.1 d p.2)
      (docAccOf text).tfp idx.terms (fun ts x _ hts => nodup_pushProse _ _ _ hts) hnt
    exact @foldlPreserve (List (Tok × TermStats)) (Tok × Nat)
      (fun ts => (keysOf ts).Nodup) (fun ts p => pushCode ts p.1 d p.2)
      (docAccOf text).tfc _ (fun ts x _ hts => nodup_pushCode _ _ _ hts) hmid
  · rw [hterms, hlp]
    have hdmem : d ∈ keysOf (idx.len_prose ++ [(d, (docAccOf text).lp)]) := by
      rw [hkey]
      exact List.mem_append_right _ (by simp)
    have hbase : ∀ p ∈ idx.terms, ∀ q ∈ p.2.prose ++ p.2.code,
        1 ≤ q.2 ∧ q.1 ∈ keysOf (idx.len_prose ++ [(d, (docAccOf text).lp)]) :=
      fun p hp q hq => ⟨(hpost p hp q hq).1,
        by rw [keysOf_append]; exact List.mem_append_left _ (hpost p hp q hq).2⟩
    have hmid := @foldlPreserve (List (Tok × TermStats)) (Tok × Nat)
      (fun ts => ∀ p ∈ ts, ∀ q ∈ p.2.prose ++ p.2.code,
        1 ≤ q.2 ∧ q.1 ∈ keysOf (idx.len_prose ++ [(d, (docAccOf text).lp)]))
      (fun ts p => pushProse ts p.1 d p.2) (docAccOf text).tfp idx.terms
      (fun ts x hx hts => pushProse_postings _ _ _ hts
        ⟨(docAcc_tf_pos text).1 x hx, hdmem⟩) hbase
    exact @foldlPreserve (List (Tok × TermStats)) (Tok × Nat)
      (fun ts => ∀ p ∈ ts, ∀ q ∈ p.2.prose ++ p.2.code,
        1 ≤ q.2 ∧ q.1 ∈ keysOf (idx.len_prose ++ [(d, (docAccOf text).lp)]))
      (fun ts p => pushCode ts p.1 d p.2) (docAccOf text).tfc _
      (fun ts x hx hts => pushCode_postings _ _ _ hts
        ⟨(docAcc_tf_pos text).2 x hx, hdmem⟩) hmid

/-- A successful build is well-formed and its length maps record, in corpus
order, exactly the field lengths computed for each added document. -/
theorem buildFrom_spec : ∀ (docs : List (Tok × List Char)) {idx idx' : Index},
    buildFrom idx docs = some idx' → idx.WF →
    idx'.WF ∧
    idx'.len_prose = idx.len_prose ++ docs.map (fun dt => (dt.1, (docAccOf dt.2).lp)) ∧
    idx'.len_code = idx.len_code ++ docs.map (fun dt => (dt.1, (docAccOf dt.2).lc))
  | [], idx, idx', hb, hw => by
    simp only [buildFrom, Option.some.injEq] at hb
    subst hb
    simp [hw]
  | (d, t) :: rest, idx, idx', hb, hw => by
    simp only [buildFrom] at hb
    cases had : idx.add_doc d t with
    | none => rw [had] at hb; exact absurd hb (by simp)
    | some idx2 =>
      rw [had] at hb
      obtain ⟨hwf2, hl2p, hl2c⟩ := buildFrom_spec rest hb (add_doc_wf hw had)
      obtain ⟨_, hlp, hlc, _⟩ := add_doc_some had
      refine ⟨hwf2, ?_, ?_⟩
      · rw [hl2p, hlp, List.map_cons, List.append_assoc]
        rfl
      · rw [hl2c, hlc, List.map_cons, List.append_assoc]
        rfl

/-- The empty index is well-formed. -/
theorem empty_wf : Index.WF {} :=
  ⟨rfl, List.nodup_nil, List.nodup_nil, fun p hp => absurd hp (List.not_mem_nil p)⟩

/-- Well-formedness of any successfully built index. -/
theorem build_wf {docs : List (Tok × List Char)} {idx : Index}
    (h : build docs = some idx) : idx.WF :=
  (buildFrom_spec docs h empty_wf).1

/-- The prose length map of a built index. -/
theorem build_len_prose {docs : List (Tok × List Char)} {idx : Index}
    (h : build docs = some idx) :
    idx.len_prose = docs.map fun dt => (dt.1, (docAccOf dt.2).lp) := by
  have := (buildFrom_spec docs h empty_wf).2.1
  simpa using this

/-- The code length map of a built index. -/
theorem build_len_code {docs : List (Tok × List Char)} {idx : Index}
    (h : build docs = some idx) :
    idx.len_code = docs.map fun dt => (dt.1, (docAccOf dt.2).lc) := by
  have := (buildFrom_spec docs h empty_wf).2.2
  simpa using this

/-! The `seen` set and the document frequency. -/

/-- Membership in the folded `seen` set. -/
theorem mem_foldl_insertDoc : ∀ (ps : List (Tok × Nat)) (seen : List Tok) (e : Tok),
    e ∈ ps.foldl (fun s p => insertDoc s p.1) seen ↔ e ∈ seen ∨ e ∈ keysOf ps
  | [], seen, e => by simp
  | p :: ps, seen, e => by
    rw [List.foldl_cons, mem_foldl_insertDoc ps _ e]
    unfold insertDoc
    by_cases hp : p.1 ∈ seen
    · simp only [hp, if_pos, keysOf_cons, List.mem_cons]
      constructor
      · rintro (h | h)
        · exact Or.inl h
        · exact Or.inr (Or.inr h)
      · rintro (h | h | h)
        · exact Or.inl h
        · exact Or.inl (h ▸ hp)
        · exact Or.inr h
    · simp only [hp, reduceIte, keysOf_cons, List.mem_cons]
      tauto

/-- The folded `seen` set has no duplicates. -/
theorem nodup_foldl_insertDoc (ps : List (Tok × Nat)) (seen : List Tok)
    (h : seen.Nodup) : (ps.foldl (fun s p => insertDoc s p.1) seen).Nodup := by
  apply foldlPreserve _ _ _ h
  intro s p _ hs
  unfold insertDoc
  by_cases hp : p.1 ∈ s
  · simpa [hp]
  · rw [if_neg hp]
    exact List.nodup_cons.mpr ⟨hp, hs⟩

/-- The `seen` set of a term has no duplicates. -/
theorem seenDocs_nodup (st : TermStats) : st.seenDocs.Nodup :=
  nodup_foldl_insertDoc _ [] List.nodup_nil

/-- Membership in the `seen` set of a term. -/
theorem mem_seenDocs (st : TermStats) (e : Tok) :
    e ∈ st.seenDocs ↔ e ∈ keysOf st.prose ∨ e ∈ keysOf st.code := by
  unfold TermStats.seenDocs
  rw [mem_foldl_insertDoc, keysOf_append]
  simp

/-- The document frequency of a term is the number of distinct document
identifiers in the union of its prose and code posting lists. -/
theorem df_eq_card (st : TermStats) :
    st.df = ((keysOf st.prose).toFinset ∪ (keysOf st.code).toFinset).card := by
  have h1 : st.seenDocs.toFinset = (keysOf st.prose).toFinset ∪ (keysOf st.code).toFinset := by
    ext e
    simp [mem_seenDocs]
  calc st.df = st.seenDocs.toFinset.card :=
        (List.toFinset_card_of_nodup (seenDocs_nodup st)).symm
    _ = _ := by rw [h1]

/-- In a well-formed index, the document frequency of every term is at most
the total number of documents. -/
theorem df_le_nDocs {idx : Index} (h : idx.WF) {p : Tok × TermStats}
    (hp : p ∈ idx.terms) : p.2.df ≤ idx.nDocs := by
  have hsub : p.2.seenDocs ⊆ keysOf idx.len_prose := by
    intro e he
    rcases (mem_seenDocs _ e).mp he with he | he
    · rcases List.mem_map.mp he with ⟨q, hq, rfl⟩
      exact (h.2.2.2 p hp q (List.mem_append_left _ hq)).2
    · rcases List.mem_map.mp he with ⟨q, hq, rfl⟩
      exact (h.2.2.2 p hp q (List.mem_append_right _ hq)).2
  have hle := ((seenDocs_nodup p.2).subperm hsub).length_le
  simpa [TermStats.df, Index.nDocs, keysOf] using hle

/-! Idf facts. -/

/-- The stored idf of every term is strictly positive. -/
theorem termIdf_pos (idx : Index) (st : TermStats) : 0 < idx.termIdf st := by
  unfold Index.termIdf
  apply Real.log_pos
  have hnum : (0 : ℝ) < max ((idx.nDocs : ℝ) - (st.df : ℝ) + 0.5) 1e-12 :=
    lt_of_lt_of_le (by norm_num) (le_max_right _ _)
  have hden : (0 : ℝ) < max ((st.df : ℝ) + 0.5) 1e-12 :=
    lt_of_lt_of_le (by norm_num) (le_max_right _ _)
  linarith [div_pos hnum hden]

/-- When `df ≤ N`, the `1e-12` floors of `finalize` are inactive and the idf
is the plain Lucene formula. -/
theorem termIdf_eq {idx : Index} {st : TermStats} (h : st.df ≤ idx.nDocs) :
    idx.termIdf st =
      Real.log (1 + ((idx.nDocs : ℝ) - (st.df : ℝ) + 0.5) / ((st.df : ℝ) + 0.5)) := by
  have hcast : (st.df : ℝ) ≤ (idx.nDocs : ℝ) := Nat.cast_le.mpr h
  have h0 : (0 : ℝ) ≤ (st.df : ℝ) := Nat.cast_nonneg _
  have hnum : (1e-12 : ℝ) ≤ (idx.nDocs : ℝ) - (st.df : ℝ) + 0.5 := by norm_num; linarith
  have hden : (1e-12 : ℝ) ≤ (st.df : ℝ) + 0.5 := by norm_num; linarith
  unfold Index.termIdf
  rw [max_eq_left hnum, max_eq_left hden]

/-! Score-side lemmas. -/

/-- The seen-set loop of `Index::score` equals a plain fold over the
key-deduplicated query-term list. -/
theorem scoreLoop_eq_foldl (idx : Index) (k1 : ℝ) :
    ∀ (ts : List (Tok × Bool)) (seen : List Tok) (acc : List (Tok × ℝ)),
    scoreLoop idx k1 seen acc ts = (dedupKeys seen ts).foldl (termContrib idx k1) acc
  | [], _, _ => rfl
  | tb :: rest, seen, acc => by
    unfold scoreLoop dedupKeys
    by_cases hs : tb.1 ∈ seen
    · rw [if_pos hs, if_pos hs, scoreLoop_eq_foldl idx k1 rest seen acc]
    · rw [if_neg hs, if_neg hs, List.foldl_cons, scoreLoop_eq_foldl idx k1 rest _ _]

/-- The deduplicated query-term list is a sublist of the original one. -/
theorem dedupKeys_sublist : ∀ (ts : List (Tok × Bool)) (seen : List Tok),
    (dedupKeys seen ts).Sublist ts
  | [], _ => List.Sublist.refl []
  | tb :: rest, seen => by
    unfold dedupKeys
    by_cases hs : tb.1 ∈ seen
    · rw [if_pos hs]
      exact (dedupKeys_sublist rest seen).cons tb
    · rw [if_neg hs]
      exact (dedupKeys_sublist rest _).cons₂ tb

/-- Membership among the keys of the deduplicated query-term list. -/
theorem mem_keysOf_dedupKeys : ∀ (ts : List (Tok × Bool)) (seen : List Tok) (e : Tok),
    e ∈ keysOf (dedupKeys seen ts) ↔ e ∉ seen ∧ e ∈ keysOf ts
  | [], seen, e => by simp [dedupKeys]
  | tb :: rest, seen, e => by
    unfold dedupKeys
    by_cases hs : tb.1 ∈ seen
    · rw [if_pos hs, mem_keysOf_dedupKeys rest seen e]
      simp only [keysOf_cons, List.mem_cons]
      constructor
      · rintro ⟨h1, h2⟩
        exact ⟨h1, Or.inr h2⟩
      · rintro ⟨h1, h2 | h2⟩
        · exact absurd (h2 ▸ hs) h1
        · exact ⟨h1, h2⟩
    · rw [if_neg hs]
      simp only [keysOf_cons, List.mem_cons, mem_keysOf_dedupKeys rest (tb.1 :: seen) e]
      constructor
      · rintro (h | ⟨h1, h2⟩)
        · exact ⟨h ▸ hs, Or.inl h⟩
        · exact ⟨fun hm => h1 (Or.inr hm), Or.inr h2⟩
      · rintro ⟨h1, h2 | h2⟩
        · exact Or.inl h2
        · by_cases he : e = tb.1
          · exact Or.inl he
          · exact Or.inr ⟨fun hm => hm.elim he h1, h2⟩

/-- The deduplicated query-term list has duplicate-free keys. -/
theorem nodup_keysOf_dedupKeys : ∀ (ts : List (Tok × Bool)) (seen : List Tok),
    (keysOf (dedupKeys seen ts)).Nodup
  | [], _ => by simp [dedupKeys]
  | tb :: rest, seen => by
    unfold dedupKeys
    by_cases hs : tb.1 ∈ seen
    · rw [if_pos hs]
      exact nodup_keysOf_dedupKeys rest seen
    · rw [if_neg hs]
      refine List.nodup_cons.mpr ⟨fun hm => ?_, nodup_keysOf_dedupKeys rest _⟩
      exact ((mem_keysOf_dedupKeys rest _ tb.1).mp hm).1 (List.mem_cons_self _ _)

/-- Query terms that are all absent from the term table leave the accumulator
untouched. -/
theorem scoreLoop_absent (idx : Index) (k1 : ℝ) :
    ∀ (ts : List (Tok × Bool)) (seen : List Tok) (acc : List (Tok × ℝ)),
    (∀ tb ∈ ts, alookup idx.terms tb.1 = none) → scoreLoop idx k1 seen acc ts = acc
  | [], _, _, _ => rfl
  | tb :: rest, seen, acc, h => by
    unfold scoreLoop
    have habs : termContrib idx k1 acc tb = acc := by
      simp only [termContrib, h tb (List.mem_cons_self _ _)]
    by_cases hs : tb.1 ∈ seen
    · rw [if_pos hs]
      exact scoreLoop_absent idx k1 rest seen acc
        (fun x hx => h x (List.mem_cons_of_mem _ hx))
    · rw [if_neg hs, habs]
      exact scoreLoop_absent idx k1 rest _ acc
        (fun x hx => h x (List.mem_cons_of_mem _ hx))

/-- Accumulator values stay positive under `accAdd` with a positive addend. -/
theorem accAdd_pos : ∀ {acc : List (Tok × ℝ)} (d : Tok) {x : ℝ},
    (∀ p ∈ acc, 0 < p.2) → 0 < x → ∀ p ∈ accAdd acc d x, 0 < p.2
  | [], d, x, h, hx => by
    unfold accAdd
    intro p hp
    simp only [List.mem_singleton] at hp
    subst hp
    exact hx
  | p :: acc, d, x, h, hx => by
    unfold accAdd
    by_cases hp : p.1 = d
    · rw [if_pos hp]
      intro r hr
      rcases List.mem_cons.mp hr with hr | hr
      · subst hr
        exact add_pos (h p (List.mem_cons_self _ _)) hx
      · exact h r (List.mem_cons_of_mem _ hr)
    · rw [if_neg hp]
      intro r hr
      rcases List.mem_cons.mp hr with hr | hr
      · exact hr ▸ h p (List.mem_cons_self _ _)
      · exact accAdd_pos d (fun s hs => h s (List.mem_cons_of_mem _ hs)) hx r hr

/-- Keys of the accumulator after `accAdd`. -/
theorem mem_keysOf_accAdd : ∀ (acc : List (Tok × ℝ)) (d : Tok) (x : ℝ) (e : Tok),
    e ∈ keysOf (accAdd acc d x) ↔ e ∈ keysOf acc ∨ e = d
  | [], d, x, e => by simp [accAdd]
  | p :: acc, d, x, e => by
    unfold accAdd
    by_cases hp : p.1 = d
    · rw [if_pos hp]
      subst hp
      simp only [keysOf_cons, List.mem_cons]
      tauto
    · rw [if_neg hp]
      simp only [keysOf_cons, List.mem_cons, mem_keysOf_accAdd acc d x e]
      tauto

/-- The floored average-length divisors of `Index::score` are positive. -/
theorem maxAvg_pos (x : ℝ) : (0 : ℝ) < max x 1e-9 :=
  lt_of_lt_of_le (by norm_num) (le_max_right _ _)

/-- The prose length normalizer is positive (for any corpus, including an
empty one or one with no prose at all). -/
theorem proseNorm_pos (idx : Index) (doc : Tok) : 0 < proseNorm idx doc := by
  unfold proseNorm bProse
  have h1 : (0 : ℝ) < max idx.avgProse 1e-9 := maxAvg_pos _
  have h2 : (0 : ℝ) ≤ (dlProse idx doc : ℝ) / max idx.avgProse 1e-9 :=
    div_nonneg (Nat.cast_nonneg _) h1.le
  nlinarith

/-- The code length normalizer is positive. -/
theorem codeNorm_pos (idx : Index) (doc : Tok) : 0 < codeNorm idx doc := by
  unfold codeNorm bCode
  have h1 : (0 : ℝ) < max idx.avgCode 1e-9 := maxAvg_pos _
  have h2 : (0 : ℝ) ≤ (dlCode idx doc : ℝ) / max idx.avgCode 1e-9 :=
    div_nonneg (Nat.cast_nonneg _) h1.le
  nlinarith

/-- The normalized term frequency of a real posting is positive. -/
theorem proseTf_pos (idx : Index) {p : Tok × Nat} (h : 1 ≤ p.2) : 0 < proseTf idx p := by
  unfold proseTf wProse
  have h1 : (0 : ℝ) < (p.2 : ℝ) := by exact_mod_cast h
  exact div_pos (by nlinarith) (proseNorm_pos idx p.1)

/-- The normalized code term frequency of a real posting is positive. -/
theorem codeTf_pos (idx : Index) {p : Tok × Nat} (h : 1 ≤ p.2) : 0 < codeTf idx p := by
  unfold codeTf wCode
  have h1 : (0 : ℝ) < (p.2 : ℝ) := by exact_mod_cast h
  exact div_pos (by nlinarith) (codeNorm_pos idx p.1)

/-- The saturation factor `tf * (k1 + 1) / (tf + k1)` is positive. -/
theorem satur_pos {tfv k1 : ℝ} (htf : 0 < tfv) (hk : 0 ≤ k1) :
    0 < tfv * (k1 + 1) / (tfv + k1) :=
  div_pos (mul_pos htf (by linarith)) (by linarith)

/-- Processing one query term keeps all accumulated scores positive. -/
theorem termContrib_pos {idx : Index} {k1 : ℝ} (hwf : idx.WF) (hk : 0 ≤ k1)
    {acc : List (Tok × ℝ)} (hacc : ∀ p ∈ acc, 0 < p.2) (tb : Tok × Bool) :
    ∀ p ∈ termContrib idx k1 acc tb, 0 < p.2 := by
  cases hl : alookup idx.terms tb.1 with
  | none => simpa only [termContrib, hl] using hacc
  | some ts =>
    simp only [termContrib, hl]
    have hmem := alookup_mem hl
    have hidf := termIdf_pos idx ts
    have hqbP : (0 : ℝ) < if tb.2 then 0.95 else 1.05 := by split <;> norm_num
    have hqbC : (0 : ℝ) < if tb.2 then 1.05 else 0.95 := by split <;> norm_num
    have h1 := @foldlPreserve (List (Tok × ℝ)) (Tok × Nat)
      (fun a => ∀ p ∈ a, 0 < p.2)
      (proseStep idx k1 (if tb.2 then 0.95 else 1.05) (idx.termIdf ts))
      ts.prose acc
      (fun a2 x hx ha2 => by
        unfold proseStep
        apply accAdd_pos _ ha2
        have htf : 0 < proseTf idx x := proseTf_pos idx
          (hwf.2.2.2 (tb.1, ts) hmem x (List.mem_append_left _ hx)).1
        exact mul_pos (mul_pos hqbP hidf) (satur_pos htf hk)) hacc
    exact @foldlPreserve (List (Tok × ℝ)) (Tok × Nat)
      (fun a => ∀ p ∈ a, 0 < p.2)
      (codeStep idx k1 (if tb.2 then 1.05 else 0.95) (idx.termIdf ts))
      ts.code _
      (fun a2 x hx ha2 => by
        unfold codeStep
        apply accAdd_pos _ ha2
        have htf : 0 < codeTf idx x := codeTf_pos idx
          (hwf.2.2.2 (tb.1, ts) hmem x (List.mem_append_right _ hx)).1
        exact mul_pos (mul_pos hqbC hidf) (satur_pos htf hk)) h1

/-- Keys of the accumulator after folding the prose postings. -/
theorem mem_keysOf_foldl_proseStep (idx : Index) (k1 qb idf : ℝ) :
    ∀ (ps : List (Tok × Nat)) (acc : List (Tok × ℝ)) (e : Tok),
    e ∈ keysOf (ps.foldl (proseStep idx k1 qb idf) acc) ↔
      e ∈ keysOf acc ∨ e ∈ keysOf ps
  | [], acc, e => by simp
  | p :: ps, acc, e => by
    rw [List.foldl_cons, mem_keysOf_foldl_proseStep idx k1 qb idf ps _ e]
    unfold proseStep
    rw [mem_keysOf_accAdd]
    simp only [keysOf_cons, List.mem_cons]
    tauto

/-- Keys of the accumulator after folding the code postings. -/
theorem mem_keysOf_foldl_codeStep (idx : Index) (k1 qb idf : ℝ) :
    ∀ (ps : List (Tok × Nat)) (acc : List (Tok × ℝ)) (e : Tok),
    e ∈ keysOf (ps.foldl (codeStep idx k1 qb idf) acc) ↔
      e ∈ keysOf acc ∨ e ∈ keysOf ps
  | [], acc, e => by simp
  | p :: ps, acc, e => by
    rw [List.foldl_cons, mem_keysOf_foldl_codeStep idx k1 qb idf ps _ e]
    unfold codeStep
    rw [mem_keysOf_accAdd]
    simp only [keysOf_cons, List.mem_cons]
    tauto

/-- Keys of the accumulator after one query term: the old keys plus the
documents in the posting lists of that term, if present in the table. -/
theorem mem_keysOf_termContrib (idx : Index) (k1 : ℝ) (acc : List (Tok × ℝ))
    (tb : Tok × Bool) (e : Tok) :
    e ∈ keysOf (termContrib idx k1 acc tb) ↔
      e ∈ keysOf acc ∨ ∃ st, alookup idx.terms tb.1 = some st ∧
        (e ∈ keysOf st.prose ∨ e ∈ keysOf st.code) := by
  cases hl : alookup idx.terms tb.1 with
  | none => simp [termContrib, hl]
  | some ts =>
    simp only [termContrib, hl]
    rw [mem_keysOf_foldl_codeStep, mem_keysOf_foldl_proseStep]
    simp only [Option.some.injEq]
    constructor
    · rintro ((h | h) | h)
      · exact Or.inl h
      · exact Or.inr ⟨ts, rfl, Or.inl h⟩
      · exact Or.inr ⟨ts, rfl, Or.inr h⟩
    · rintro (h | ⟨st, hst, h⟩)
      · exact Or.inl (Or.inl h)
      · cases hst
        rcases h with h | h
        · exact Or.inl (Or.inr h)
        · exact Or.inr h

/-- Keys of the accumulator after the whole query-term fold. -/
theorem mem_keysOf_foldl_termContrib (idx : Index) (k1 : ℝ) :
    ∀ (ts : List (Tok × Bool)) (acc : List (Tok × ℝ)) (e : Tok),
    e ∈ keysOf (ts.foldl (termContrib idx k1) acc) ↔
      e ∈ keysOf acc ∨ ∃ tb ∈ ts, ∃ st, alookup idx.terms tb.1 = some st ∧
        (e ∈ keysOf st.prose ∨ e ∈ keysOf st.code)
  | [], acc, e => by simp
  | tb :: rest, acc, e => by
    rw [List.foldl_cons, mem_keysOf_foldl_termContrib idx k1 rest _ e,
      mem_keysOf_termContrib]
    constructor
    · rintro ((h | h) | ⟨tb2, h2, hst⟩)
      · exact Or.inl h
      · exact Or.inr ⟨tb, List.mem_cons_self _ _, h⟩
      · exact Or.inr ⟨tb2, List.mem_cons_of_mem _ h2, hst⟩
    · rintro (h | ⟨tb2, h2, hst⟩)
      · exact Or.inl (Or.inl h)
      · rcases List.mem_cons.mp h2 with h2 | h2
        · subst h2
          exact Or.inl (Or.inr hst)
        · exact Or.inr ⟨tb2, h2, hst⟩

/-- The sorted output of `Index::score` is a permutation of the accumulator. -/
theorem score_perm (idx : Index) (k1 : ℝ) (q : List Char) :
    (idx.score k1 q).Perm (scoreLoop idx k1 [] [] (qTerms q)) :=
  List.mergeSort_perm _ _

/-- The output of `Index::score` is sorted by score descending. -/
theorem score_sorted (idx : Index) (k1 : ℝ) (q : List Char) :
    (idx.score k1 q).Pairwise (fun a b => b.2 ≤ a.2) := by
  have h := @List.sorted_mergeSort (Tok × ℝ) (fun a b => decide (b.2 ≤ a.2))
    (by
      intro a b c hab hbc
      simp only [decide_eq_true_eq] at *
      exact le_trans hbc hab)
    (by
      intro a b
      simp only [Bool.or_eq_true, decide_eq_true_eq]
      exact le_total b.2 a.2)
    (scoreLoop idx k1 [] [] (qTerms q))
  exact h.imp fun hab => of_decide_eq_true hab

/-! Character-class and string helper lemmas. -/

/-- Unfolding of the uppercase test. -/
theorem isAsciiUpper_iff {c : Char} :
    isAsciiUpper c = true ↔ 65 ≤ c.toNat ∧ c.toNat ≤ 90 := by
  simp [isAsciiUpper]

/-- Unfolding of the lowercase test. -/
theorem isAsciiLower_iff {c : Char} :
    isAsciiLower c = true ↔ 97 ≤ c.toNat ∧ c.toNat ≤ 122 := by
  simp [isAsciiLower]

/-- An ASCII uppercase character is not lowercase. -/
theorem upper_not_lower {c : Char} (h : isAsciiUpper c = true) :
    isAsciiLower c = false := by
  rw [isAsciiUpper_iff] at h
  simp only [isAsciiLower, decide_eq_false_iff_not]
  omega

/-- An ASCII lowercase character is not uppercase. -/
theorem lower_not_upper {c : Char} (h : isAsciiLower c = true) :
    isAsciiUpper c = false := by
  rw [isAsciiLower_iff] at h
  simp only [isAsciiUpper, decide_eq_false_iff_not]
  omega

/-- The camel scan of the empty segment is empty, whatever the fuel. -/
theorem scaFuel_nil : ∀ fuel, scaFuel fuel ([] : List Char) = []
  | 0 => rfl
  | _ + 1 => rfl

/-- Dropping a fully-satisfying prefix drops into the remainder. -/
theorem dropWhile_append_pos {p : Char → Bool} {l₁ l₂ : List Char}
    (h : ∀ a ∈ l₁, p a = true) :
    (l₁ ++ l₂).dropWhile p = l₂.dropWhile p := by
  rw [List.dropWhile_append, List.dropWhile_eq_nil_iff.mpr h]
  simp

/-- Rust `ends_with` as a prefix of the reversal. -/
theorem isSuffixOf_iff_rev_take (sfx t : Tok) :
    sfx.isSuffixOf t = true ↔ t.reverse.take sfx.length = sfx.reverse := by
  rw [List.isSuffixOf_iff_suffix, ← List.reverse_prefix, List.prefix_iff_eq_take,
    List.length_reverse]
  exact eq_comm

/-- Rust `ends_with` for a single character as a prefix of the reversal. -/
theorem getLast?_iff_rev_take (t : Tok) (c : Char) :
    t.getLast? = some c ↔ t.reverse.take 1 = [c] := by
  rw [← List.head?_reverse]
  cases t.reverse with
  | nil => simp
  | cons a l => simp

/-- Rust `truncate` (a take) as a drop from the reversal. -/
theorem take_sub_reverse (l : Tok) (k : Nat) (hk : k ≤ l.length) :
    l.take (l.length - k) = (l.reverse.drop k).reverse := by
  have h := @List.reverse_take Char l (l.length - k)
  rw [Nat.sub_sub_self hk] at h
  calc l.take (l.length - k) = (l.take (l.length - k)).reverse.reverse :=
        (List.reverse_reverse _).symm
    _ = (l.reverse.drop k).reverse := by rw [h]

/-- The substring scan of `looks_code` finds exactly the infixes. -/
theorem containsSeq_iff (sub : Tok) : ∀ l : Tok, containsSeq sub l = true ↔ sub <:+: l
  | [] => by simp [containsSeq, List.isEmpty_iff]
  | c :: cs => by
    simp only [containsSeq, Bool.or_eq_true, List.isPrefixOf_iff_prefix,
      containsSeq_iff sub cs, List.infix_cons_iff]

/-! Equivalence of the two formulations of the prose normalizer. -/

/-- Plural-folding stage: source formulation (suffix test plus `truncate`)
equals the specification formulation (reversal surgery). -/
theorem pluralFold_eq (t0 : Tok) :
    (if (['i', 'e', 's'] : Tok).isSuffixOf t0 && decide (3 < t0.length) then
        t0.take (t0.length - 3) ++ ['y']
      else if (t0.getLast? == some 's') && !(['s', 's'] : Tok).isSuffixOf t0
          && decide (3 < t0.length) then
        t0.take (t0.length - 1)
      else t0) =
    (if t0.reverse.take 3 = ['s', 'e', 'i'] ∧ 3 < t0.length then
        (t0.reverse.drop 3).reverse ++ ['y']
      else if t0.reverse.take 1 = ['s'] ∧ ¬ t0.reverse.take 2 = ['s', 's'] ∧
          3 < t0.length then
        (t0.reverse.drop 1).reverse
      else t0) := by
  have e1 : ((['i', 'e', 's'] : Tok).isSuffixOf t0 && decide (3 < t0.length)) = true ↔
      (t0.reverse.take 3 = ['s', 'e', 'i'] ∧ 3 < t0.length) := by
    rw [Bool.and_eq_true, decide_eq_true_eq, isSuffixOf_iff_rev_take]
    norm_num
  have hss : (['s', 's'] : Tok).isSuffixOf t0 = true ↔
      t0.reverse.take 2 = ['s', 's'] := by
    rw [isSuffixOf_iff_rev_take]
    norm_num
  have e2 : ((t0.getLast? == some 's') && !(['s', 's'] : Tok).isSuffixOf t0
      && decide (3 < t0.length)) = true ↔
      (t0.reverse.take 1 = ['s'] ∧ ¬ t0.reverse.take 2 = ['s', 's'] ∧
        3 < t0.length) := by
    simp only [Bool.and_eq_true, Bool.not_eq_true', decide_eq_true_eq, beq_iff_eq]
    rw [getLast?_iff_rev_take]
    constructor
    · rintro ⟨⟨h1, h2⟩, h3⟩
      exact ⟨h1, fun hc => by simp [hss.mpr hc] at h2, h3⟩
    · rintro ⟨h1, h2, h3⟩
      refine ⟨⟨h1, ?_⟩, h3⟩
      cases hx : (['s', 's'] : Tok).isSuffixOf t0
      · rfl
      · exact absurd (hss.mp hx) h2
  by_cases h1 : t0.reverse.take 3 = ['s', 'e', 'i'] ∧ 3 < t0.length
  · rw [if_pos (e1.mpr h1), if_pos h1, take_sub_reverse t0 3 (le_of_lt h1.2)]
  · rw [if_neg (fun hc => h1 (e1.mp hc)), if_neg h1]
    by_cases h2 : t0.reverse.take 1 = ['s'] ∧ ¬ t0.reverse.take 2 = ['s', 's'] ∧
        3 < t0.length
    · rw [if_pos (e2.mpr h2), if_pos h2,
        take_sub_reverse t0 1 (by have := h2.2.2; omega)]
    · rw [if_neg (fun hc => h2 (e2.mp hc)), if_neg h2]

/-- Tense-folding stage: source formulation equals the specification
formulation. -/
theorem tenseFold_eq (t1 : Tok) :
    (if (['i', 'n', 'g'] : Tok).isSuffixOf t1 && decide (5 < t1.length) then
        t1.take (t1.length - 3)
      else if (['e', 'd'] : Tok).isSuffixOf t1 && decide (4 < t1.length) then
        t1.take (t1.length - 2)
      else t1) =
    (if t1.reverse.take 3 = ['g', 'n', 'i'] ∧ 5 < t1.length then
        (t1.reverse.drop 3).reverse
      else if t1.reverse.take 2 = ['d', 'e'] ∧ 4 < t1.length then
        (t1.reverse.drop 2).reverse
      else t1) := by
  have e3 : ((['i', 'n', 'g'] : Tok).isSuffixOf t1 && decide (5 < t1.length)) = true ↔
      (t1.reverse.take 3 = ['g', 'n', 'i'] ∧ 5 < t1.length) := by
    rw [Bool.and_eq_true, decide_eq_true_eq, isSuffixOf_iff_rev_take]
    norm_num
  have e4 : ((['e', 'd'] : Tok).isSuffixOf t1 && decide (4 < t1.length)) = true ↔
      (t1.reverse.take 2 = ['d', 'e'] ∧ 4 < t1.length) := by
    rw [Bool.and_eq_true, decide_eq_true_eq, isSuffixOf_iff_rev_take]
    norm_num
  by_cases h3 : t1.reverse.take 3 = ['g', 'n', 'i'] ∧ 5 < t1.length
  · rw [if_pos (e3.mpr h3), if_pos h3,
      take_sub_reverse t1 3 (by have := h3.2; omega)]
  · rw [if_neg (fun hc => h3 (e3.mp hc)), if_neg h3]
    by_cases h4 : t1.reverse.take 2 = ['d', 'e'] ∧ 4 < t1.length
    · rw [if_pos (e4.mpr h4), if_pos h4,
        take_sub_reverse t1 2 (by have := h4.2; omega)]
    · rw [if_neg (fun hc => h4 (e4.mp hc)), if_neg h4]

/-- The acronym-boundary lookback of the camel scanner: an uppercase run of
length at least 2 (here `v :: vt ++ [u]`) immediately followed by a lowercase
run splits before its last letter, which starts the following capitalized
word. -/
theorem camel_acronym_boundary (v : Char) (vt : List Char) (u d : Char)
    (ds : List Char)
    (hv : isAsciiUpper v = true) (hvt : ∀ c ∈ vt, isAsciiUpper c = true)
    (hu : isAsciiUpper u = true) (hd : isAsciiLower d = true)
    (hds : ∀ c ∈ ds, isAsciiLower c = true) :
    split_camel_acronyms ((v :: vt) ++ u :: d :: ds) = [v :: vt, u :: d :: ds] := by
  have hall : ∀ c ∈ vt ++ [u], isAsciiUpper c = true := by
    intro c hc
    rcases List.mem_append.mp hc with hc | hc
    · exact hvt c hc
    · simp only [List.mem_singleton] at hc
      exact hc ▸ hu
  have htake : (vt ++ u :: d :: ds).takeWhile isAsciiUpper = vt ++ [u] := by
    rw [List.append_cons vt u (d :: ds), List.takeWhile_append_of_pos hall,
      List.takeWhile_cons]
    simp [lower_not_upper hd]
  have hdrop : (vt ++ u :: d :: ds).dropWhile isAsciiUpper = d :: ds := by
    rw [List.append_cons vt u (d :: ds), dropWhile_append_pos hall,
      List.dropWhile_cons]
    simp [lower_not_upper hd]
  have hhead : ((vt ++ u :: d :: ds).head?.map isAsciiLower).getD false = false := by
    cases vt with
    | nil => simp [upper_not_lower hu]
    | cons w wt => simp [upper_not_lower (hvt w (List.mem_cons_self w wt))]
  have hlt : decide (1 < (v :: (vt ++ [u])).length) = true := by
    rw [decide_eq_true_eq]
    simp only [List.length_cons, List.length_append, List.length_singleton]
    omega
  have hdl : (v :: (vt ++ [u])).dropLast = v :: vt := by
    rw [show v :: (vt ++ [u]) = (v :: vt) ++ [u] from by simp, List.dropLast_concat]
  have hgl : (v :: (vt ++ [u])).getLastD 'A' = u := by
    rw [show v :: (vt ++ [u]) = (v :: vt) ++ [u] from by simp, List.getLastD_concat]
  have hdst : ds.takeWhile isAsciiLower = ds := List.takeWhile_eq_self_iff.mpr hds
  have hdsd : ds.dropWhile isAsciiLower = [] := List.dropWhile_eq_nil_iff.mpr hds
  unfold split_camel_acronyms
  rw [List.cons_append]
  rw [show (v :: (vt ++ u :: d :: ds)).length = (vt ++ u :: d :: ds).length + 1 from
    by simp]
  simp only [scaFuel, hv, hhead, htake, hdrop, hd, hlt, hdl, hgl, hdst, hdsd,
    scaFuel_nil, if_true, Bool.and_self, Bool.true_and, Bool.and_true]
  simp

/-! The claims. -/

/-- Claim C1: for every index successfully built from documents with distinct
identifiers, the values stored by `finalize` satisfy: every term's document
frequency is the number of distinct document identifiers in the union of its
prose and code posting lists; its idf is `ln(1 + (N - df + 0.5)/(df + 0.5))`
with `N` the total number of added documents (the `1e-12` floors of the source
are inactive because `df ≤ N`); and the corpus-wide average prose and code
lengths are the arithmetic means of the per-document field lengths (0 for an
empty corpus). -/
theorem claim_C1 {docs : List (Tok × List Char)} {idx : Index}
    (hb : build docs = some idx) :
    (∀ p ∈ idx.terms,
      p.2.df = ((keysOf p.2.prose).toFinset ∪ (keysOf p.2.code).toFinset).card ∧
      idx.termIdf p.2 =
        Real.log (1 + ((idx.nDocs : ℝ) - (p.2.df : ℝ) + 0.5) / ((p.2.df : ℝ) + 0.5))) ∧
    idx.nDocs = docs.length ∧
    idx.avgProse = (if docs.length = 0 then (0 : ℝ) else
      (((docs.map fun dt => (docAccOf dt.2).lp).sum : ℕ) : ℝ) / (docs.length : ℝ)) ∧
    idx.avgCode = (if docs.length = 0 then (0 : ℝ) else
      (((docs.map fun dt => (docAccOf dt.2).lc).sum : ℕ) : ℝ) / (docs.length : ℝ)) := by
  have hwf := build_wf hb
  have hlp := build_len_prose hb
  have hlc := build_len_code hb
  have hn : idx.nDocs = docs.length := by
    rw [Index.nDocs, hlp, List.length_map]
  refine ⟨?_, hn, ?_, ?_⟩
  · intro p hp
    exact ⟨df_eq_card p.2, termIdf_eq (df_le_nDocs hwf hp)⟩
  · unfold Index.avgProse
    rw [hn]
    have hsum : idx.sumLenProse = (docs.map fun dt => (docAccOf dt.2).lp).sum := by
      rw [Index.sumLenProse, hlp, List.map_map]
      rfl
    rw [hsum]
    by_cases h0 : docs.length = 0
    · simp [h0]
    · rw [if_pos (by exact_mod_cast Nat.pos_of_ne_zero h0), if_neg h0]
  · unfold Index.avgCode
    rw [hn]
    have hsum : idx.sumLenCode = (docs.map fun dt => (docAccOf dt.2).lc).sum := by
      rw [Index.sumLenCode, hlc, List.map_map]
      rfl
    rw [hsum]
    by_cases h0 : docs.length = 0
    · simp [h0]
    · rw [if_pos (by exact_mod_cast Nat.pos_of_ne_zero h0), if_neg h0]

/-- Witness for C1 on the concrete demo corpus. -/
theorem claim_C1_witness : demoIndex.nDocs = demoDocs.length :=
  (@claim_C1 demoDocs demoIndex (by decide)).2.1

/-- Claim C2: for a built index and a nonnegative saturation constant, `score`
returns a permutation of the accumulator (each document paired with its
accumulated score), sorted by score descending; every returned score is
strictly positive (hence non-zero); and the returned documents are exactly
those appearing in at least one posting list of at least one query term
present in the term table — no other document appears. -/
theorem claim_C2 {docs : List (Tok × List Char)} {idx : Index} {k1 : ℝ}
    (hb : build docs = some idx) (hk : 0 ≤ k1) (q : List Char) :
    (idx.score k1 q).Perm (scoreLoop idx k1 [] [] (qTerms q)) ∧
    (idx.score k1 q).Pairwise (fun a b => b.2 ≤ a.2) ∧
    (∀ p ∈ idx.score k1 q, 0 < p.2 ∧ p.2 ≠ 0) ∧
    ∀ e : Tok, e ∈ keysOf (idx.score k1 q) ↔
      ∃ tb ∈ qTerms q, ∃ st, alookup idx.terms tb.1 = some st ∧
        (e ∈ keysOf st.prose ∨ e ∈ keysOf st.code) := by
  have hwf := build_wf hb
  have hperm := score_perm idx k1 q
  have hpos : ∀ p ∈ scoreLoop idx k1 [] [] (qTerms q), 0 < p.2 := by
    rw [scoreLoop_eq_foldl]
    exact @foldlPreserve (List (Tok × ℝ)) (Tok × Bool)
      (fun acc => ∀ p ∈ acc, 0 < p.2) (termContrib idx k1)
      (dedupKeys [] (qTerms q)) []
      (fun acc tb _ hacc => termContrib_pos hwf hk hacc tb)
      (fun p hp => absurd hp (List.not_mem_nil p))
  refine ⟨hperm, score_sorted idx k1 q, ?_, ?_⟩
  · intro p hp
    have hp2 := hpos p (hperm.mem_iff.mp hp)
    exact ⟨hp2, ne_of_gt hp2⟩
  · intro e
    have hkeys : e ∈ keysOf (idx.score k1 q) ↔
        e ∈ keysOf (scoreLoop idx k1 [] [] (qTerms q)) :=
      (hperm.map Prod.fst).mem_iff
    rw [hkeys, scoreLoop_eq_foldl, mem_keysOf_foldl_termContrib]
    simp only [keysOf_nil, List.not_mem_nil, false_or]
    constructor
    · rintro ⟨tb, htb, hst⟩
      exact ⟨tb, (dedupKeys_sublist (qTerms q) []).subset htb, hst⟩
    · rintro ⟨tb, htb, st, hst, hmem⟩
      have h1 : tb.1 ∈ keysOf (dedupKeys [] (qTerms q)) :=
        (mem_keysOf_dedupKeys (qTerms q) [] tb.1).mpr
          ⟨List.not_mem_nil _, List.mem_map_of_mem Prod.fst htb⟩
      rcases List.mem_map.mp h1 with ⟨tb2, htb2, heq⟩
      exact ⟨tb2, htb2, st, by rw [heq]; exact hst, hmem⟩

/-- Witness for C2 on the concrete demo corpus. -/
theorem claim_C2_witness :
    (demoIndex.score 1 ("error".data)).Pairwise (fun a b => b.2 ≤ a.2) :=
  (@claim_C2 demoDocs demoIndex 1 (by decide) zero_le_one ("error".data)).2.1

/-- Claim C3: adding a document whose identifier is already in the corpus
fails deterministically (the Rust code panics; the embedding returns `none`),
so no updated index is produced and the term table, posting lists and
field-length maps are left as they were. -/
theorem claim_C3 (idx : Index) (d : Tok) (text : List Char)
    (h : d ∈ keysOf idx.len_prose) : idx.add_doc d text = none := by
  unfold Index.add_doc
  rw [if_pos h]

/-- Witness for C3: a duplicate of an actually added document identifier. -/
theorem claim_C3_witness :
    ((build ([(("dup".data), ("first".data))])).getD {}).add_doc
      ("dup".data) ("second".data) = none :=
  claim_C3 _ _ _ (by decide)

/-- Claim C8: no division by zero in scoring: the floored average-length
divisors are positive (for any built corpus, including the empty one and one
where a field is entirely absent), the idf numerator or denominator floors are
positive and every stored idf is positive, and for every posting of every
query term found in the table both the length normalizer and the saturation
denominator `tf + k1` are positive — hence scores are finite real values. -/
theorem claim_C8 {docs : List (Tok × List Char)} {idx : Index} {k1 : ℝ}
    (hb : build docs = some idx) (hk : 0 ≤ k1) (q : List Char) :
    (0 < max idx.avgProse 1e-9 ∧ 0 < max idx.avgCode 1e-9) ∧
    (∀ p ∈ idx.terms, 0 < max ((p.2.df : ℝ) + 0.5) 1e-12 ∧ 0 < idx.termIdf p.2) ∧
    ∀ tb ∈ qTerms q, ∀ st, alookup idx.terms tb.1 = some st →
      (∀ p ∈ st.prose, 0 < proseNorm idx p.1 ∧ 0 < proseTf idx p + k1) ∧
      ∀ p ∈ st.code, 0 < codeNorm idx p.1 ∧ 0 < codeTf idx p + k1 := by
  have hwf := build_wf hb
  refine ⟨⟨maxAvg_pos _, maxAvg_pos _⟩, ?_, ?_⟩
  · intro p hp
    exact ⟨lt_of_lt_of_le (by norm_num) (le_max_right _ _), termIdf_pos idx p.2⟩
  · intro tb htb st hst
    have hmem := alookup_mem hst
    constructor
    · intro p hp
      have htf := proseTf_pos idx
        (hwf.2.2.2 (tb.1, st) hmem p (List.mem_append_left _ hp)).1
      exact ⟨proseNorm_pos idx p.1, add_pos_of_pos_of_nonneg htf hk⟩
    · intro p hp
      have htf := codeTf_pos idx
        (hwf.2.2.2 (tb.1, st) hmem p (List.mem_append_right _ hp)).1
      exact ⟨codeNorm_pos idx p.1, add_pos_of_pos_of_nonneg htf hk⟩

/-- Witness for C8 on the empty corpus (average lengths are 0, the floors keep
the divisors positive). -/
theorem claim_C8_witness :
    0 < max (Index.avgProse {}) 1e-9 ∧ 0 < max (Index.avgCode {}) 1e-9 :=
  (@claim_C8 [] {} 1 rfl zero_le_one ("fox".data)).1

/-- Bool `contains` is membership. -/
theorem contains_iff_mem {l : Tok} {c : Char} : l.contains c = true ↔ c ∈ l :=
  List.elem_iff

/-- Claim C4: the query pipeline of `score` deduplicates query terms: the
seen-set loop is a fold over the key-deduplicated query-term list, whose keys
are duplicate-free, which is a sublist of the raw query-term list, and which
still covers every term string of the raw list — so each distinct term
contributes to the accumulated scores at most once however often it is
repeated in the query. -/
theorem claim_C4 (idx : Index) (k1 : ℝ) (q : List Char) :
    scoreLoop idx k1 [] [] (qTerms q) =
      (dedupKeys [] (qTerms q)).foldl (termContrib idx k1) [] ∧
    (keysOf (dedupKeys [] (qTerms q))).Nodup ∧
    (dedupKeys [] (qTerms q)).Sublist (qTerms q) ∧
    ∀ tb ∈ qTerms q, tb.1 ∈ keysOf (dedupKeys [] (qTerms q)) :=
  ⟨scoreLoop_eq_foldl idx k1 (qTerms q) [] [],
   nodup_keysOf_dedupKeys (qTerms q) [],
   dedupKeys_sublist (qTerms q) [],
   fun tb htb => (mem_keysOf_dedupKeys (qTerms q) [] tb.1).mpr
     ⟨List.not_mem_nil _, List.mem_map_of_mem Prod.fst htb⟩⟩

/-- Witness for C4 on a query with a repeated term. -/
theorem claim_C4_witness :
    (keysOf (dedupKeys [] (qTerms ("dog dog Dog".data)))).Nodup :=
  (claim_C4 {} 1 ("dog dog Dog".data)).2.1

/-- Claim C5: a raw token is classified code-like exactly when it contains an
ASCII uppercase letter, contains an ASCII digit, contains an underscore,
contains the substring `::`, or ends with `!`; the same classifier drives both
the query pipeline (every query pair produced for a token carries its
`looks_code` flag) and indexing (a prose-classified token never touches the
code maps of `add_doc`). -/
theorem claim_C5 (tok : Tok) :
    (looks_code tok = true ↔
      (∃ c ∈ tok, isAsciiUpper c = true) ∨ (∃ c ∈ tok, isAsciiDigit c = true) ∨
        '_' ∈ tok ∨ ([':', ':'] : Tok) <:+: tok ∨ tok.getLast? = some '!') ∧
    (∀ p ∈ qTermsOfToken tok, p.2 = looks_code tok) ∧
    (looks_code tok = false →
      ∀ a : DocAcc, (procToken a tok).tfc = a.tfc ∧ (procToken a tok).lc = a.lc) := by
  refine ⟨?_, ?_, ?_⟩
  · unfold looks_code
    simp only [Bool.or_eq_true, List.any_eq_true, beq_iff_eq]
    constructor
    · rintro (((⟨c, hc, h | h⟩ | h) | h) | h)
      · exact Or.inl ⟨c, hc, h⟩
      · exact Or.inr (Or.inl ⟨c, hc, h⟩)
      · exact Or.inr (Or.inr (Or.inl (contains_iff_mem.mp h)))
      · exact Or.inr (Or.inr (Or.inr (Or.inl ((containsSeq_iff _ tok).mp h))))
      · exact Or.inr (Or.inr (Or.inr (Or.inr h)))
    · rintro (⟨c, hc, h⟩ | ⟨c, hc, h⟩ | h | h | h)
      · exact Or.inl (Or.inl (Or.inl ⟨c, hc, Or.inl h⟩))
      · exact Or.inl (Or.inl (Or.inl ⟨c, hc, Or.inr h⟩))
      · exact Or.inl (Or.inl (Or.inr (contains_iff_mem.mpr h)))
      · exact Or.inl (Or.inr ((containsSeq_iff _ tok).mpr h))
      · exact Or.inr h
  · intro p hp
    cases hc : looks_code tok
    · rw [qTermsOfToken, if_neg (by simp [hc])] at hp
      simp only [List.mem_singleton] at hp
      rw [hp]
    · rw [qTermsOfToken, if_pos hc] at hp
      rcases List.mem_append.mp hp with hp | hp
      · cases hn : is_noise_code_token (lowerTok tok)
        · rw [if_pos (by simp [hn])] at hp
          simp only [List.mem_singleton] at hp
          rw [hp]
        · rw [if_neg (by simp [hn])] at hp
          exact absurd hp (List.not_mem_nil p)
      · rcases List.mem_filterMap.mp hp with ⟨sub, hsub, hopt⟩
        cases hn : is_noise_code_token sub
        · rw [if_pos (by simp [hn]), Option.some.injEq] at hopt
          rw [← hopt]
        · rw [if_neg (by simp [hn])] at hopt
          exact absurd hopt (by simp)
  · intro hc a
    unfold procToken
    rw [if_neg (by simp [hc])]
    exact ⟨rfl, rfl⟩

/-- Witness for C5 on an acronym token. -/
theorem claim_C5_witness : looks_code ("HTTPRequest".data) = true :=
  (claim_C5 ("HTTPRequest".data)).1.mpr (Or.inl ⟨'H', by decide, by decide⟩)

/-- Claim C6: identifier decomposition splits on `::`, then on `_`, then with
the camel/acronym scan; a multi-letter uppercase run immediately followed by a
lowercase run is split before its last letter (one-character lookback), so
`HTTPRequest` decomposes into `http` and `request`, not `httpr` and `equest`.
The path and snake examples check the split order. -/
theorem claim_C6 (v : Char) (vt : List Char) (u d : Char) (ds : List Char)
    (hv : isAsciiUpper v = true) (hvt : ∀ c ∈ vt, isAsciiUpper c = true)
    (hu : isAsciiUpper u = true) (hd : isAsciiLower d = true)
    (hds : ∀ c ∈ ds, isAsciiLower c = true) :
    split_camel_acronyms ((v :: vt) ++ u :: d :: ds) = [v :: vt, u :: d :: ds] ∧
    split_identifier ("HTTPRequest".data) = [("http".data), ("request".data)] ∧
    split_identifier ("serde::de::Deserialize".data) =
      [("serde".data), ("de".data), ("deserialize".data)] ∧
    split_identifier ("parse_http_request".data) =
      [("parse".data), ("http".data), ("request".data)] :=
  ⟨camel_acronym_boundary v vt u d ds hv hvt hu hd hds, by decide, by decide,
    by decide⟩

/-- Witness for C6 at the token `HTTPRequest`. -/
theorem claim_C6_witness :
    split_camel_acronyms (('H' :: ("TTP".data)) ++ 'R' :: 'e' :: ("quest".data)) =
      [('H' :: ("TTP".data)), 'R' :: 'e' :: ("quest".data)] :=
  (claim_C6 'H' ("TTP".data) 'R' 'e' ("quest".data) (by decide) (by decide)
    (by decide) (by decide) (by decide)).1

/-- Claim C9: degenerate queries do not error: a query term absent from the
term table leaves every accumulated score untouched, the empty query returns
the empty list, and a query all of whose surviving terms are absent from the
table returns the empty list. -/
theorem claim_C9 (idx : Index) (k1 : ℝ) (q : List Char) :
    (∀ (acc : List (Tok × ℝ)) (tb : Tok × Bool),
      alookup idx.terms tb.1 = none → termContrib idx k1 acc tb = acc) ∧
    idx.score k1 [] = [] ∧
    ((∀ tb ∈ qTerms q, alookup idx.terms tb.1 = none) → idx.score k1 q = []) := by
  refine ⟨?_, ?_, ?_⟩
  · intro acc tb h
    simp only [termContrib, h]
  · unfold Index.score
    rw [show qTerms [] = [] from rfl]
    rw [show scoreLoop idx k1 [] [] [] = [] from rfl]
    exact List.mergeSort_nil
  · intro h
    unfold Index.score
    rw [scoreLoop_absent idx k1 (qTerms q) [] [] h]
    exact List.mergeSort_nil

/-- Witness for C9: an unknown query term against the demo corpus. -/
theorem claim_C9_witness :
    demoIndex.score 1 ("nonexistenttoken".data) = [] :=
  (claim_C9 demoIndex 1 ("nonexistenttoken".data)).2.2 (by decide)

/-- Claim C10: a code-like token whose lowercased whole form is also its single
decomposed subword is registered twice per occurrence by `add_doc` — its code
term frequency and the document's code length both grow by 2 — and is pushed
twice into the query-term list of `score`, where deduplication then keeps a
single copy. -/
theorem claim_C10 (raw : Tok) (a : DocAcc)
    (hc : looks_code raw = true)
    (hn : is_noise_code_token (lowerTok raw) = false)
    (hs : split_identifier raw = [lowerTok raw]) :
    countOf (procToken a raw).tfc (lowerTok raw) = countOf a.tfc (lowerTok raw) + 2 ∧
    (procToken a raw).lc = a.lc + 2 ∧
    qTermsOfToken raw = [(lowerTok raw, true), (lowerTok raw, true)] ∧
    dedupKeys [] (qTermsOfToken raw) = [(lowerTok raw, true)] := by
  have hp : procToken a raw =
      { a with tfc := bump (bump a.tfc (lowerTok raw)) (lowerTok raw),
               lc := a.lc + 1 + 1 } := by
    simp [procToken, hc, hs, hn]
  have hq : qTermsOfToken raw = [(lowerTok raw, true), (lowerTok raw, true)] := by
    simp [qTermsOfToken, hc, hs, hn]
  refine ⟨?_, ?_, hq, ?_⟩
  · rw [hp]
    show countOf (bump (bump a.tfc (lowerTok raw)) (lowerTok raw)) (lowerTok raw) = _
    rw [countOf_bump_self, countOf_bump_self]
  · rw [hp]
  · rw [hq]
    simp [dedupKeys]

/-- Witness for C10 at the token `Dog`. -/
theorem claim_C10_witness :
    qTermsOfToken ("Dog".data) =
      [(lowerTok ("Dog".data), true), (lowerTok ("Dog".data), true)] :=
  (claim_C10 ("Dog".data) {} (by decide) (by decide) (by decide)).2.2.1

/-- Claim C7: the prose normalizer lowercases and then folds, in order, the
plural suffixes (`ies` to `y` above length 3, trailing `s` that is not `ss`
above length 3) and then the tense suffixes (`ing` above length 5, else `ed`
above length 4) — stated by proving the source formulation equal to the
specification formulation for every token, plus concrete examples. -/
theorem claim_C7 (tok : Tok) :
    normalize_prose tok = normalizeProseSpec tok ∧
    normalize_prose ("Studies".data) = ("study".data) ∧
    normalize_prose ("dogs".data) = ("dog".data) ∧
    normalize_prose ("glass".data) = ("glass".data) ∧
    normalize_prose ("parsing".data) = ("pars".data) ∧
    normalize_prose ("defined".data) = ("defin".data) := by
  refine ⟨?_, by decide, by decide, by decide, by decide, by decide⟩
  simp only [normalize_prose, normalizeProseSpec]
  rw [pluralFold_eq]
  exact tenseFold_eq _

end BM25
